import Mathlib

/-!
Verification of core invariants of the rome/tools formatter and analyzer
against a shallow Lean embedding of the relevant source functions.

Conventions used throughout:
* Rust strings are embedded as `List Char`; `str` converts a Lean string
  literal to that representation.
* Fallible Rust code (functions that can panic, e.g. via `expect`) is
  embedded with `Option`/`Except` results, `none`/`error` marking the panic.
* Machine integers (`u32`, `usize`) hold small text offsets and lengths in
  all modelled scenarios, so they are embedded as `Nat`.
-/

/-! ## Analyzer signal queue (crates/rome_analyze/src/matcher.rs)

The analyzer pushes `SignalEntry` values into a `BinaryHeap` and drains it
after every phase.  `SignalEntry`'s `Ord` implementation compares
`other.text_range.start()` against `self.text_range.start()` (reversed), and
its `PartialEq` compares the `start` offsets only.
-/

/-- Embedding of `SignalEntry` (matcher.rs lines 86-93).  The boxed
`AnalyzerSignal` is represented by an opaque identifier, the `RuleKey` by its
two static strings, and `text_range.start()` by a natural number. -/
structure SignalEntry where
  signal : Nat
  rule : String × String
  start : Nat
deriving DecidableEq, Repr

/-- Embedding of `Ord for SignalEntry` (matcher.rs lines 96-100):
`other.text_range.start().cmp(&self.text_range.start())`. -/
def cmpSignalEntry (self other : SignalEntry) : Ordering :=
  compare other.start self.start

/-- Embedding of `PartialEq for SignalEntry` (matcher.rs lines 110-114):
equality compares only `text_range.start()`. -/
def beqSignalEntry (self other : SignalEntry) : Bool :=
  self.start == other.start

/-- One `BinaryHeap::pop` on the signal queue.  Rust's `BinaryHeap` is a
max-heap for the element's `Ord`; since `cmpSignalEntry` reverses the
comparison of the `start` offsets, `pop` removes an entry whose `start` is
minimal among the queued entries.  The heap contents are represented by the
list of queued entries. -/
def heapPop : List SignalEntry → Option (SignalEntry × List SignalEntry)
  | [] => none
  | e :: rest =>
    match heapPop rest with
    | none => some (e, [])
    | some (m, rest') => if e.start ≤ m.start then some (e, rest) else some (m, e :: rest')

theorem heapPop_none_iff (q : List SignalEntry) : heapPop q = none ↔ q = [] := by
  cases q with
  | nil => simp [heapPop]
  | cons e rest =>
    simp only [heapPop]
    cases h : heapPop rest with
    | none => simp
    | some p =>
      obtain ⟨m, rest'⟩ := p
      by_cases hle : e.start ≤ m.start <;> simp [hle]

theorem heapPop_perm (q : List SignalEntry) :
    ∀ m r, heapPop q = some (m, r) → (m :: r).Perm q ∧ ∀ x ∈ q, m.start ≤ x.start := by
  induction q with
  | nil => intro m r h; simp [heapPop] at h
  | cons e rest ih =>
    intro m r h
    simp only [heapPop] at h
    cases hr : heapPop rest with
    | none =>
      rw [hr] at h
      have : rest = [] := (heapPop_none_iff rest).mp hr
      subst this
      simp only [Option.some.injEq, Prod.mk.injEq] at h
      obtain ⟨rfl, rfl⟩ := h
      exact ⟨List.Perm.refl _, by simp⟩
    | some p =>
      obtain ⟨m', rest'⟩ := p
      rw [hr] at h
      obtain ⟨hperm, hmin⟩ := ih m' rest' hr
      by_cases hle : e.start ≤ m'.start
      · simp only [hle, if_true, Option.some.injEq, Prod.mk.injEq] at h
        obtain ⟨rfl, rfl⟩ := h
        refine ⟨List.Perm.refl _, ?_⟩
        intro x hx
        rcases List.mem_cons.mp hx with rfl | hx
        · exact le_refl _
        · exact le_trans hle (hmin x hx)
      · simp only [hle, if_false, Option.some.injEq, Prod.mk.injEq] at h
        obtain ⟨rfl, rfl⟩ := h
        refine ⟨(List.Perm.swap _ _ _).trans (List.Perm.cons _ hperm), ?_⟩
        intro x hx
        rcases List.mem_cons.mp hx with rfl | hx
        · exact le_of_not_le hle
        · exact hmin x hx

theorem heapPop_length (q : List SignalEntry) (m : SignalEntry) (r : List SignalEntry)
    (h : heapPop q = some (m, r)) : r.length < q.length := by
  have := (heapPop_perm q m r h).1.length_eq
  simp only [List.length_cons] at this
  omega

/-- Draining the signal queue: repeatedly `pop` until the heap is empty,
emitting the popped entries in order (analyzer main loop). -/
def drainQueue (q : List SignalEntry) : List SignalEntry :=
  match h : heapPop q with
  | none => []
  | some (m, rest) => m :: drainQueue rest
termination_by q.length
decreasing_by exact heapPop_length q m rest h

/-! ## Suppression comments (crates/rome_js_syntax/src/suppression.rs) -/

/-- Converts a Lean string literal to the `List Char` embedding of Rust
string slices. -/
def str (s : String) : List Char := s.toList

/-- Embedding of Rust's `char::is_whitespace` (the Unicode White_Space
property, by code point), used by `trim_start`, `trim_end` and the
category-separator search. -/
def rustIsWhitespace (c : Char) : Bool :=
  c.toNat = 0x20 || (0x09 ≤ c.toNat && c.toNat ≤ 0x0d) ||
  c.toNat = 0x85 || c.toNat = 0xa0 || c.toNat = 0x1680 ||
  (0x2000 ≤ c.toNat && c.toNat ≤ 0x200a) || c.toNat = 0x2028 || c.toNat = 0x2029 ||
  c.toNat = 0x202f || c.toNat = 0x205f || c.toNat = 0x3000

/-- Embedding of `str::trim_start`. -/
def rustTrimStart (s : List Char) : List Char := s.dropWhile rustIsWhitespace

/-- Embedding of `str::trim_end`. -/
def rustTrimEnd (s : List Char) : List Char := (s.reverse.dropWhile rustIsWhitespace).reverse

/-- Embedding of `str::trim`. -/
def rustTrim (s : List Char) : List Char := rustTrimEnd (rustTrimStart s)

/-- Embedding of `str::strip_prefix`. -/
def stripPref (p s : List Char) : Option (List Char) :=
  if p.isPrefixOf s then some (s.drop p.length) else none

/-- Embedding of `str::strip_suffix`. -/
def stripSuffixOf (p s : List Char) : Option (List Char) :=
  if p.isSuffixOf s then some (s.take (s.length - p.length)) else none

/-- Embedding of `str::lines`: split at newline characters, the final line
ending being optional; a carriage return is removed from the end of a line
only when that line was terminated by a newline (so only before a split
point, never on the final unterminated line). -/
def rustLines (s : List Char) : List (List Char) :=
  if s = [] then []
  else
    let parts := s.splitOn '\n'
    let terminated := parts.dropLast.map fun line =>
      match stripSuffixOf (str "\x0d") line with
      | some line' => line'
      | none => line
    if s.getLast? = some '\n' then terminated
    else terminated ++ parts.drop (parts.length - 1)

/-- Embedding of `line.find(pred)` followed by the first, char-boundary
safe `split_at` call in `parse_suppression_comment`: returns the
characters before the first match, the matching separator character, and
the characters after it (or `none` when no character matches).  The
second, one-byte `rest.split_at(1)` of the Rust code panics when the
separator occupies more than one byte; the caller checks the separator's
`utf8Size` to model exactly that panic. -/
def splitAtMatch (p : Char → Bool) : List Char → Option (List Char × Char × List Char)
  | [] => none
  | c :: cs =>
    if p c then some ([], c, cs)
    else
      match splitAtMatch p cs with
      | none => none
      | some (pre, sep, post) => some (c :: pre, sep, post)

theorem rustTrimStart_length_le (s : List Char) : (rustTrimStart s).length ≤ s.length :=
  (List.dropWhile_suffix _).length_le

theorem splitAtMatch_post_length (p : Char → Bool) (s pre post : List Char) (c : Char)
    (h : splitAtMatch p s = some (pre, c, post)) : post.length < s.length := by
  induction s generalizing pre with
  | nil => simp [splitAtMatch] at h
  | cons a as ih =>
    simp only [splitAtMatch] at h
    by_cases hp : p a
    · simp only [hp, if_true, Option.some.injEq, Prod.mk.injEq] at h
      obtain ⟨-, -, rfl⟩ := h
      simp
    · simp only [hp, if_false] at h
      cases hs : splitAtMatch p as with
      | none => rw [hs] at h; simp at h
      | some q =>
        obtain ⟨pre', sep', post'⟩ := q
        rw [hs] at h
        simp only [Option.some.injEq, Prod.mk.injEq] at h
        obtain ⟨-, -, rfl⟩ := h
        have := ih pre' hs
        simp only [List.length_cons]
        omega

theorem splitAtMatch_mem (p : Char → Bool) (s pre post : List Char) (c : Char)
    (h : splitAtMatch p s = some (pre, c, post)) : ∀ x ∈ post, x ∈ s := by
  induction s generalizing pre with
  | nil => simp [splitAtMatch] at h
  | cons a as ih =>
    simp only [splitAtMatch] at h
    by_cases hp : p a
    · simp only [hp, if_true, Option.some.injEq, Prod.mk.injEq] at h
      obtain ⟨-, -, rfl⟩ := h
      intro x hx; exact List.mem_cons_of_mem a hx
    · simp only [hp, if_false] at h
      cases hs : splitAtMatch p as with
      | none => rw [hs] at h; simp at h
      | some q =>
        obtain ⟨pre', sep', post'⟩ := q
        rw [hs] at h
        simp only [Option.some.injEq, Prod.mk.injEq] at h
        obtain ⟨-, -, rfl⟩ := h
        intro x hx; exact List.mem_cons_of_mem a (ih pre' hs x hx)

/-- Embedding of `Suppression` (suppression.rs lines 18-27): a list of
`(category, optional value)` pairs and a reason. -/
structure Suppression where
  categories : List (List Char × Option (List Char))
  reason : List Char
deriving DecidableEq, Repr

/-- Separator predicate of the category loop (suppression.rs line 58):
`c == ':' || c == '(' || c.is_whitespace()`. -/
def isCategorySeparator (c : Char) : Bool :=
  c = ':' || c = '(' || rustIsWhitespace c

/-- Embedding of the category-parsing `loop` of `parse_suppression_comment`
(suppression.rs lines 56-96).  Returns `none` where the Rust code panics —
the one-byte `rest.split_at(1)` hits a separator character that occupies
more than one byte in UTF-8, which happens exactly for the multi-byte
whitespace characters accepted by the separator search — `some none` where
the line is abandoned by the `?` operator (no separator found, or an
unclosed parenthesis), and otherwise the accumulated categories and the
rest of the line after the colon. -/
def parseCategories (line : List Char) (cats : List (List Char × Option (List Char))) :
    Option (Option (List (List Char × Option (List Char)) × List Char)) :=
  match h : splitAtMatch isCategorySeparator line with
  | none => some none
  | some (category0, sep, rest) =>
    let category := rustTrimEnd category0
    if sep.utf8Size = 1 then
      if sep = ':' then
        some (some ((if category.isEmpty then cats else cats ++ [(category, none)]),
          rustTrimStart rest))
      else if sep = '(' then
        match h2 : splitAtMatch (fun c => c = ')') rest with
        | none => some none
        | some (value0, _, rest2) =>
          parseCategories (rustTrimStart rest2) (cats ++ [(category, some (rustTrim value0))])
      else
        parseCategories (rustTrimStart rest)
          (if category.isEmpty then cats else cats ++ [(category, none)])
    else none
termination_by line.length
decreasing_by
· have h1 := splitAtMatch_post_length _ _ _ _ _ h
  have h2' := splitAtMatch_post_length _ _ _ _ _ h2
  have h3 : (rustTrimStart rest2).length ≤ rest2.length := rustTrimStart_length_le rest2
  omega
· have h1 := splitAtMatch_post_length _ _ _ _ _ h
  have h3 : (rustTrimStart rest).length ≤ rest.length := rustTrimStart_length_le rest
  omega

/-- The start-of-line normalisation of the per-line closure of
`parse_suppression_comment` (suppression.rs lines 43-49): eat leading
whitespace, and inside a block comment also eat stars and whitespace
again. -/
def lineAfterCommentMarkers (isBlockComment : Bool) (line0 : List Char) : List Char :=
  let line1 := rustTrimStart line0
  if isBlockComment then rustTrimStart (line1.dropWhile (fun c => c = '*')) else line1

/-- Embedding of the per-line closure of `parse_suppression_comment`
(suppression.rs lines 42-99): `none` where the Rust code panics while
parsing the line, `some none` when the line yields no suppression (it is
dropped by the `filter_map`), and `some (some s)` when the line parses to
the suppression `s`. -/
def parseSuppressionLine (isBlockComment : Bool) (line0 : List Char) :
    Option (Option Suppression) :=
  match stripPref (str "rome-ignore") (lineAfterCommentMarkers isBlockComment line0) with
  | none => some none
  | some afterToken =>
    match parseCategories (rustTrimStart afterToken) [] with
    | none => none
    | some none => some none
    | some (some (cats, rest)) => some (some ⟨cats, rustTrimEnd rest⟩)

/-- The eager part of `parse_suppression_comment` (suppression.rs lines
30-40), which runs when the function is called, before its line iterator
is consumed: split off the opening token and, for a block comment, the
closing token.  `none` where the Rust code panics (a comment shorter than
the opening token, an unknown opening token, or a block comment without
the closing token); otherwise the block-comment flag and the comment's
lines. -/
def suppressionCommentLines (comment : List Char) : Option (Bool × List (List Char)) :=
  if comment.length < 2 then none
  else
    let head := comment.take 2
    let body := comment.drop 2
    if head = str "//" then some (false, rustLines body)
    else if head = str "/*" then
      match stripSuffixOf (str "*/") body with
      | none => none
      | some body2 => some (true, rustLines body2)
    else none

/-- Full collection of the suppression iterator, as a caller such as
`collect::<Vec<_>>()` consumes it: lines are parsed in order, lines that
yield no suppression are dropped, and a line on which the parser panics
aborts the whole collection. -/
def collectSuppressionLines (isBlockComment : Bool) :
    List (List Char) → Option (List Suppression)
  | [] => some []
  | line :: rest =>
    match parseSuppressionLine isBlockComment line with
    | none => none
    | some none => collectSuppressionLines isBlockComment rest
    | some (some s) =>
      match collectSuppressionLines isBlockComment rest with
      | none => none
      | some ss => some (s :: ss)

/-- Embedding of `parse_suppression_comment` (suppression.rs lines 29-101),
fully collected: `none` where the Rust function panics (during the eager
head processing or while parsing one of the lines), and otherwise the list
of suppressions collected from the comment's lines. -/
def parseSuppressionComment (comment : List Char) : Option (List Suppression) :=
  match suppressionCommentLines comment with
  | none => none
  | some (isBlock, ls) => collectSuppressionLines isBlock ls

/-- Embedding of `SuppressionCategory` (suppression.rs lines 103-106). -/
inductive SuppressionCategory where
  | format
  | lint
deriving DecidableEq, Repr

/-- Embedding of `PartialEq between SuppressionCategory and string slices`
(suppression.rs lines 108-121). -/
def suppressionCategoryEq (c : SuppressionCategory) (s : List Char) : Bool :=
  match c with
  | .format => s = str "format"
  | .lint => s = str "lint"

/-- Embedding of the trivia pieces a token carries
(`TriviaPieceKind` of rome_rowan): whitespace, newline, comments carrying
their text, and skipped token text. -/
inductive TriviaPiece where
  | whitespace
  | newline
  | comment (text : List Char)
  | skipped
deriving DecidableEq, Repr

/-- The comment texts among a list of trivia pieces, in order; embedding of
`pieces().filter_map(|trivia| trivia.as_comments())`. -/
def commentTexts (pieces : List TriviaPiece) : List (List Char) :=
  pieces.filterMap fun p =>
    match p with
    | .comment t => some t
    | _ => none

/-- The model of a `JsSyntaxNode` as far as `has_suppressions_category`
observes it: whether `JsAnyRoot::can_cast(node.kind())` holds, whether
`node.kind().is_list()` holds, and the leading trivia of
`node.first_token()` when it exists. -/
structure SyntaxNodeModel where
  isRoot : Bool
  isList : Bool
  firstTokenLeading : Option (List TriviaPiece)
deriving DecidableEq, Repr

/-- The comment texts in the leading trivia of the node's first token (the
comments `has_suppressions_category` inspects). -/
def nodeCommentTexts (node : SyntaxNodeModel) : List (List Char) :=
  match node.firstTokenLeading with
  | none => []
  | some leading => commentTexts leading

/-- Short-circuiting `Iterator::any` over a panickable predicate: `none`
when the predicate panics before a positive answer is found. -/
def optionAny (f : List Char → Option Bool) : List (List Char) → Option Bool
  | [] => some false
  | t :: rest =>
    match f t with
    | none => none
    | some true => some true
    | some false => optionAny f rest

/-- Lazy consumption of the suppression iterator by
`has_suppressions_category`:
`parse_suppression_comment(..).flat_map(|s| s.categories).any(..)` pulls
one line at a time, checks the parsed suppression's categories, and stops
at the first match — lines after a match are never parsed — while a panic
on a reached line propagates. -/
def anyCategoryInLines (category : SuppressionCategory) (isBlockComment : Bool) :
    List (List Char) → Option Bool
  | [] => some false
  | line :: rest =>
    match parseSuppressionLine isBlockComment line with
    | none => none
    | some none => anyCategoryInLines category isBlockComment rest
    | some (some s) =>
      if s.categories.any (fun entry => suppressionCategoryEq category entry.1) then
        some true
      else anyCategoryInLines category isBlockComment rest

/-- Whether one comment's parsed suppressions contain the given category;
the inner predicate of `has_suppressions_category` (suppression.rs lines
141-145), consuming the suppression iterator lazily. -/
def commentSuppressesCategory (category : SuppressionCategory) (text : List Char) :
    Option Bool :=
  match suppressionCommentLines text with
  | none => none
  | some (isBlock, ls) => anyCategoryInLines category isBlock ls

/-- Embedding of `has_suppressions_category` (suppression.rs lines 124-146).
The result is `none` where the Rust function would panic while parsing a
malformed comment, and `some b` otherwise. -/
def hasSuppressionsCategory (category : SuppressionCategory) (node : SyntaxNodeModel) :
    Option Bool :=
  if node.isRoot || node.isList then some false
  else
    match node.firstTokenLeading with
    | none => some false
    | some leading => optionAny (commentSuppressesCategory category) (commentTexts leading)

/-! ## Format IR (crates/rome_formatter) -/

/-- Embedding of `PrintMode`: how a group is printed. -/
inductive PrintMode where
  | flat
  | expanded
deriving DecidableEq, Repr

/-- Embedding of `LineMode`, the four line-break kinds built by
`soft_line_break`, `hard_line_break`, `empty_line` and
`soft_line_break_or_space` (builders.rs lines 61-172). -/
inductive LineMode where
  | soft
  | hard
  | empty
  | softOrSpace
deriving DecidableEq, Repr

/-- Modelled from the spec: the `FormatElement` enum itself lives in the
`format_element` module that is not part of the source tree; its variants
are the IR element tags of spec sections 3 and 6, restricted to those the
builders under verification construct.  `token` carries the output text,
`group` its optional `GroupId` (an opaque numeric handle) and content,
`conditional` the `ConditionalGroupContent` mode and optional group id,
`interned` carries a flag telling whether the interned handle is uniquely
owned (Rust's `Interned::try_unwrap` succeeds), and `fill` carries the
items plus the boxed separator. -/
inductive FormatElement where
  | token : String → FormatElement
  | space : FormatElement
  | line : LineMode → FormatElement
  | expandParent : FormatElement
  | group : Option Nat → List FormatElement → FormatElement
  | conditional : PrintMode → Option Nat → List FormatElement → FormatElement
  | indentEl : List FormatElement → FormatElement
  | comment : List FormatElement → FormatElement
  | list : List FormatElement → FormatElement
  | interned : Bool → FormatElement → FormatElement
  | fill : List FormatElement → FormatElement → FormatElement

/-- State of a `GroupElementsBuffer` (builders.rs lines 1022-1027): the
elements already written through to the inner buffer, and the pending group
content.  The inner buffer is represented by its element list. -/
structure GEBState where
  inner : List FormatElement
  content : List FormatElement

/-- Whether the first element of an interned list is one of the elements
the hoisting loop of `GroupElementsBuffer::write_interned` consumes, i.e.
whether `content_start` ends up greater than zero (builders.rs lines
1049-1080): the loop advances over `Comment` and `Interned` elements and
breaks at the first other element, so `content_start == 0` exactly when the
list is empty or starts with a non-comment, non-interned element. -/
def hoistsFirst : List FormatElement → Bool
  | .comment _ :: _ => true
  | .interned _ _ :: _ => true
  | _ => false

mutual

/-- Embedding of `GroupElementsBuffer::write_element` (builders.rs lines
1099-1124): while the group content is still empty, lists are flattened,
interned elements are unwrapped (or handed to `write_interned` when
shared), comments are forwarded to the inner buffer, and any other element
starts the group content; afterwards everything is appended to the group
content (lists flattened). -/
def writeElement (st : GEBState) (e : FormatElement) : GEBState :=
  if st.content.isEmpty then
    match e with
    | .list l => writeElements st l
    | .interned unique e' =>
      if unique then writeElement st e' else writeInterned st unique e'
    | .comment c => { st with inner := st.inner ++ [.comment c] }
    | e => { st with content := st.content ++ [e] }
  else
    match e with
    | .list l => { st with content := st.content ++ l }
    | e => { st with content := st.content ++ [e] }
termination_by (sizeOf e, 0)

/-- Embedding of `GroupElementsBuffer::write_elements` (the `Buffer` trait
helper): write each element in order. -/
def writeElements (st : GEBState) (es : List FormatElement) : GEBState :=
  match es with
  | [] => st
  | e :: rest => writeElements (writeElement st e) rest
termination_by (sizeOf es, 0)

/-- Embedding of `GroupElementsBuffer::write_interned` (builders.rs lines
1041-1093), receiving the interned handle as its uniqueness flag plus the
dereferenced element: an interned comment is forwarded to the inner buffer;
for an interned list the leading `Comment`/`Interned` run is hoisted
element by element and the remainder re-written, while a list without such
a leading run (`content_start == 0`) is kept in the content whole; nested
interned handles recurse; anything else starts the group content. -/
def writeInterned (st : GEBState) (unique : Bool) (e : FormatElement) : GEBState :=
  match e with
  | .comment l => { st with inner := st.inner ++ [.interned unique (.comment l)] }
  | .list l =>
    if hoistsFirst l then writeInternedRun st l
    else { st with content := st.content ++ [.interned unique (.list l)] }
  | .interned unique' e' => writeInterned st unique' e'
  | _ => { st with content := st.content ++ [.interned unique e] }
termination_by (sizeOf e, 0)

/-- The hoisting loop of `write_interned` over the elements of an interned
list (builders.rs lines 1051-1085), in the case where at least one leading
element is hoisted: comments are written to the inner buffer, nested
interned elements recurse through `write_interned` and the loop stops once
the group content becomes non-empty, and the first other element makes the
loop break so that the remaining elements (`list[content_start..]`) are
re-written through `write_elements`. -/
def writeInternedRun (st : GEBState) (rest : List FormatElement) : GEBState :=
  match rest with
  | [] => st
  | first :: rest' =>
    match first with
    | .comment c => writeInternedRun { st with inner := st.inner ++ [.comment c] } rest'
    | .interned unique' e' =>
      let st' := writeInterned st unique' e'
      if st'.content.isEmpty then writeInternedRun st' rest' else writeElements st' rest'
    | other => writeElements st (other :: rest')
termination_by (sizeOf rest, 1)

end

/-- Embedding of `GroupElements::fmt` (builders.rs lines 982-998): format
the content through a fresh `GroupElementsBuffer` on top of the enclosing
buffer, then append a `Group` element with the collected content unless the
content is empty and no group id was requested.  `inner` is the element
list of the enclosing buffer and `es` the sequence of elements the content
writes. -/
def groupElementsWrite (inner : List FormatElement) (es : List FormatElement)
    (groupId : Option Nat) : List FormatElement :=
  let st := writeElements ⟨inner, []⟩ es
  if st.content.isEmpty && groupId.isNone then st.inner
  else st.inner ++ [.group groupId st.content]

/-- Buffer-local state a comment marker may carry, used to state the
hoisting invariant: the elements `GroupElementsBuffer` forwards to the
inner buffer are comments, possibly wrapped in interned handles. -/
def isCommentMarker : FormatElement → Bool
  | .comment _ => true
  | .interned _ e => isCommentMarker e
  | _ => false

/-- Embedding of `GroupElementsBuffer::snapshot` (builders.rs lines
1134-1139): the snapshot of the inner buffer plus the pending content
length.  The inner buffer is list-backed, so its snapshot is its element
count. -/
def gebSnapshot (st : GEBState) : Nat × Nat :=
  (st.inner.length, st.content.length)

/-- Embedding of `GroupElementsBuffer::restore_snapshot` (builders.rs lines
1141-1145): restore the inner buffer to its recorded element count and
truncate the pending content to the recorded length. -/
def gebRestoreSnapshot (st : GEBState) (s : Nat × Nat) : GEBState :=
  ⟨st.inner.take s.1, st.content.take s.2⟩

/-! ## Fill builder (crates/rome_formatter/src/builders.rs lines 1774-1885) -/

/-- Modelled from the spec: `VecBuffer::into_element` lives outside the
source tree; per the IR data model a buffer holding a single element yields
that element and any other buffer yields the `List` of its elements (the
empty list being the empty element). -/
def intoElement : List FormatElement → FormatElement
  | [e] => e
  | es => .list es

/-- Modelled from the spec: `FormatElement::is_empty` lives outside the
source tree; the empty element is the empty `List` (spec section 3 lists no
dedicated empty tag). -/
def isEmptyElement : FormatElement → Bool
  | .list [] => true
  | _ => false

/-- State of a `FillBuilder` (builders.rs lines 1776-1783): the separator
element and the items collected so far. -/
structure FillState where
  separator : FormatElement
  items : List FormatElement

/-- Embedding of `FillBuilder::entry` (builders.rs lines 1853-1868): the
entry's formatted output (the elements it wrote into a fresh `VecBuffer`)
is turned into an element and pushed unless empty. -/
def fillEntry (b : FillState) (written : List FormatElement) : FillState :=
  let item := intoElement written
  if isEmptyElement item then b else { b with items := b.items ++ [item] }

/-- A sequence of `FillBuilder::entry` calls. -/
def fillEntries (b : FillState) (ws : List (List FormatElement)) : FillState :=
  ws.foldl fillEntry b

/-- Embedding of `FillBuilder::finish` (builders.rs lines 1871-1885),
applied to the element list `buf` of the underlying formatter buffer: zero
collected items write nothing, a single item is written alone, and two or
more items are wrapped in a single `Fill` element with the separator. -/
def fillFinish (buf : List FormatElement) (b : FillState) : List FormatElement :=
  match b.items with
  | [] => buf
  | [item] => buf ++ [item]
  | items => buf ++ [.fill items b.separator]

/-! ## Builders used by the concrete printing scenario (builders.rs) -/

/-- Embedding of `BlockIndent::fmt` in `IndentMode::Soft`, i.e.
`soft_block_indent` (builders.rs lines 764-769 and 852-881): a soft line
break followed by the content goes into an `Indent` element unless the
content is empty, and a trailing soft line break follows the indent.  The
result is the element sequence written to the enclosing buffer. -/
def softBlockIndentWrite (content : List FormatElement) : List FormatElement :=
  let buffered := FormatElement.line .soft :: content
  if buffered.length == 1 then []
  else [.indentEl buffered, .line .soft]

/-- Embedding of `IfGroupBreaks::fmt` for `if_group_breaks` (builders.rs
lines 1270-1279 and 1420-1436): the content becomes a
`ConditionalGroupContent` in `Expanded` mode (without group id), or nothing
when the content is empty. -/
def ifGroupBreaksWrite (content : List FormatElement) : List FormatElement :=
  if content.isEmpty then []
  else [.conditional .expanded none content]

/-! ## Printer

Modelled from the spec: the printer module is not part of the source tree,
so the definitions below follow spec section 4.2 (and 4.3 for fill): a
group is measured flat — soft line breaks as nothing, soft-or-space as a
space, `if_group_breaks` content skipped — and printed flat if the measure
fits in the remaining width budget, expanded otherwise, where a hard or
empty line or an `ExpandParent` makes the measure fail.
-/

/-- Printer options of spec section 4.2: the print width and the indent
string (`Tab` by default, counted one column per character). -/
structure PrinterOptions where
  printWidth : Nat
  indentStr : String := "\t"

/-- Output state of the printer: the text produced so far and the current
column. -/
structure PrintState where
  out : String
  col : Nat

/-- Appends literal text to the printer output. -/
def pushText (st : PrintState) (s : String) : PrintState :=
  { out := st.out ++ s, col := st.col + s.length }

/-- Appends a line break followed by the indent for the given level. -/
def pushNewline (opts : PrinterOptions) (ind : Nat) (st : PrintState) : PrintState :=
  let indentText := String.join (List.replicate ind opts.indentStr)
  { out := st.out ++ "\n" ++ indentText, col := indentText.length }

mutual

/-- Modelled from the spec: flat width of one element (none when the
element forces the enclosing group to expand). -/
def flatWidth (e : FormatElement) : Option Nat :=
  match e with
  | .token s => some s.length
  | .space => some 1
  | .line .soft => some 0
  | .line .softOrSpace => some 1
  | .line .hard => none
  | .line .empty => none
  | .expandParent => none
  | .group _ es => flatWidthList es
  | .conditional .expanded _ _ => some 0
  | .conditional .flat _ es => flatWidthList es
  | .indentEl es => flatWidthList es
  | .comment es => flatWidthList es
  | .list es => flatWidthList es
  | .interned _ e' => flatWidth e'
  | .fill items sep => flatWidthFill items sep
termination_by (sizeOf e, 0)

/-- Modelled from the spec: flat width of an element sequence. -/
def flatWidthList (es : List FormatElement) : Option Nat :=
  match es with
  | [] => some 0
  | e :: rest =>
    match flatWidth e, flatWidthList rest with
    | some w1, some w2 => some (w1 + w2)
    | _, _ => none
termination_by (sizeOf es, 0)

/-- Modelled from the spec: flat width of fill items joined by the
separator. -/
def flatWidthFill (items : List FormatElement) (sep : FormatElement) : Option Nat :=
  match items with
  | [] => some 0
  | [e] => flatWidth e
  | e :: rest =>
    match flatWidth e, flatWidth sep, flatWidthFill rest sep with
    | some w1, some w2, some w3 => some (w1 + w2 + w3)
    | _, _, _ => none
termination_by (sizeOf items + sizeOf sep, 1)

end

mutual

/-- Modelled from the spec: printing of one element at the given indent
level and print mode (spec section 4.2). -/
def printElement (opts : PrinterOptions) (ind : Nat) (mode : PrintMode)
    (st : PrintState) (e : FormatElement) : PrintState :=
  match e with
  | .token s => pushText st s
  | .space => pushText st " "
  | .line m =>
    match mode, m with
    | .flat, .soft => st
    | .flat, .softOrSpace => pushText st " "
    | .flat, .hard => pushNewline opts ind st
    | .flat, .empty => pushNewline opts ind { st with out := st.out ++ "\n" }
    | .expanded, .empty => pushNewline opts ind { st with out := st.out ++ "\n" }
    | .expanded, _ => pushNewline opts ind st
  | .expandParent => st
  | .group _ es =>
    match flatWidthList es with
    | some w =>
      if st.col + w ≤ opts.printWidth then printList opts ind .flat st es
      else printList opts ind .expanded st es
    | none => printList opts ind .expanded st es
  | .conditional m _ es => if m = mode then printList opts ind mode st es else st
  | .indentEl es => printList opts (ind + 1) mode st es
  | .comment es => printList opts ind mode st es
  | .list es => printList opts ind mode st es
  | .interned _ e' => printElement opts ind mode st e'
  | .fill items sep =>
    match items with
    | [] => st
    | item :: rest =>
      let st1 :=
        match flatWidth item with
        | some w =>
          if st.col + w ≤ opts.printWidth then printElement opts ind .flat st item
          else printElement opts ind .expanded st item
        | none => printElement opts ind .expanded st item
      printFillRest opts ind st1 sep rest
termination_by (sizeOf e, 0)

/-- Modelled from the spec: printing of an element sequence. -/
def printList (opts : PrinterOptions) (ind : Nat) (mode : PrintMode)
    (st : PrintState) (es : List FormatElement) : PrintState :=
  match es with
  | [] => st
  | e :: rest => printList opts ind mode (printElement opts ind mode st e) rest
termination_by (sizeOf es, 0)

/-- Modelled from the spec: fill layout (spec section 4.3): for each
subsequent item, the separator and the item are printed flat when they fit
on the current line and expanded otherwise. -/
def printFillRest (opts : PrinterOptions) (ind : Nat) (st : PrintState)
    (sep : FormatElement) (items : List FormatElement) : PrintState :=
  match items with
  | [] => st
  | item :: rest =>
    let st' :=
      match flatWidth sep, flatWidth item with
      | some ws, some wi =>
        if st.col + ws + wi ≤ opts.printWidth then
          printElement opts ind .flat (printElement opts ind .flat st sep) item
        else
          printElement opts ind .expanded (printElement opts ind .expanded st sep) item
      | _, _ =>
        printElement opts ind .expanded (printElement opts ind .expanded st sep) item
    printFillRest opts ind st' sep rest
termination_by (sizeOf sep + sizeOf items, 1)

end

/-- Modelled from the spec: print a document (a sequence of root elements);
outside any group the mode is expanded, the indent level zero and the
column zero. -/
def printDoc (opts : PrinterOptions) (es : List FormatElement) : String :=
  (printList opts 0 .expanded ⟨"", 0⟩ es).out

/-- The concrete IR of spec scenario 3, built through the source builders:
`group("[", soft_block_indent("1,", soft_line_break_or_space(), "2,",
soft_line_break_or_space(), "3", if_group_breaks(",")), "]")`, written
through a `GroupElementsBuffer` on top of an empty enclosing buffer. -/
def scenarioThreeDoc : List FormatElement :=
  groupElementsWrite []
    ([.token "["] ++
      softBlockIndentWrite
        ([.token "1,", .line .softOrSpace, .token "2,", .line .softOrSpace, .token "3"] ++
          ifGroupBreaksWrite [.token ","]) ++
      [.token "]"])
    none

/-! ## Trailing comment classification
(crates/rome_js_formatter/src/comments.rs) -/

/-- Embedding of `skip_new_lines` (rome_js_formatter comments.rs lines
454-470): consume the leading run of whitespace and newline trivia pieces,
returning the number of newlines and the remaining pieces. -/
def skipNewLines : List TriviaPiece → Nat × List TriviaPiece
  | .newline :: rest =>
    let (n, r) := skipNewLines rest
    (n + 1, r)
  | .whitespace :: rest => skipNewLines rest
  | pieces => (0, pieces)

/-- Embedding of `TrailingComment` (rome_js_formatter comments.rs lines
415-418): the comment piece (by its text) and the `leading_new_lines`
count. -/
structure TrailingComment where
  text : List Char
  leadingNewLines : Nat
deriving DecidableEq, Repr

/-- Embedding of the trivia scan loops of
`print_trailing_comments_for_token` (rome_js_formatter comments.rs lines
261-275 and 280-292): newlines increment `leading_new_lines`, comments are
collected with the current count which then resets, everything else is
ignored.  Returns the collected comments and the final count. -/
def collectTrailingPieces (pieces : List TriviaPiece) (leadingNewLines : Nat)
    (acc : List TrailingComment) : List TrailingComment × Nat :=
  match pieces with
  | [] => (acc, leadingNewLines)
  | .newline :: rest => collectTrailingPieces rest (leadingNewLines + 1) acc
  | .comment t :: rest => collectTrailingPieces rest 0 (acc ++ [⟨t, leadingNewLines⟩])
  | _ :: rest => collectTrailingPieces rest leadingNewLines acc

/-- The next token as `print_trailing_comments_for_token` observes it: its
leading trivia and whether it is the first child token of its parent node
(`is_next_start_of_node`). -/
structure NextTokenModel where
  leading : List TriviaPiece
  isStartOfNode : Bool
deriving DecidableEq, Repr

/-- The token `print_trailing_comments_for_token` is called on: its
trailing trivia and its successor token, when any. -/
structure TrailingTokenModel where
  trailing : List TriviaPiece
  next : Option NextTokenModel
deriving DecidableEq, Repr

/-- Embedding of `print_trailing_comments_for_token` (rome_js_formatter
comments.rs lines 230-297), as the sequence of `TrailingComment` values the
function formats: when the next token starts a new node and no line break
separates the two tokens, nothing is trailing (the comments become leading
trivia of the next node); otherwise the comments of the token's trailing
trivia are collected, followed by the comments of the next token's leading
trivia when the next token does not start a new node. -/
def trailingCommentsForToken (tok : TrailingTokenModel) : List TrailingComment :=
  match tok.next with
  | some next =>
    let hasLineBreakBetween := (skipNewLines next.leading).1 > 0
    if !hasLineBreakBetween && next.isStartOfNode then []
    else
      let (comments1, ln1) := collectTrailingPieces tok.trailing 0 []
      if !next.isStartOfNode then (collectTrailingPieces next.leading ln1 comments1).1
      else comments1
  | none => (collectTrailingPieces tok.trailing 0 []).1

/-- The texts of a sequence of trailing comments. -/
def trailingTexts (cs : List TrailingComment) : List (List Char) :=
  cs.map TrailingComment.text

/-- The comment texts of the trivia pieces that precede the first newline
piece (the comments on the same line as the owning token). -/
def commentsBeforeFirstNewline (pieces : List TriviaPiece) : List (List Char) :=
  commentTexts (pieces.takeWhile fun p => p ≠ .newline)

/-- The trailing classification exactly the way claim C2 words it, for
comparison with `trailingCommentsForToken`: the comments of the previous
token's trailing trivia up to the first newline, plus the comments of the
next token's leading trivia on the same line when the next token begins a
new node. -/
def claimedTrailingTexts (tok : TrailingTokenModel) : List (List Char) :=
  commentsBeforeFirstNewline tok.trailing ++
    match tok.next with
    | some next =>
      if next.isStartOfNode then commentsBeforeFirstNewline next.leading else []
    | none => []

/-! ## Comments preceding a token (crates/rome_formatter/src/comments.rs) -/

/-- Embedding of `CommentKind` (rome_formatter comments.rs lines 8-18). -/
inductive CommentKind where
  | block
  | inlineBlock
  | line
deriving DecidableEq, Repr

/-- The format error kind surfaced by the comment formatting code under
verification (`FormatError::SyntaxError`). -/
inductive FormatError where
  | syntaxError
deriving DecidableEq, Repr

/-- Embedding of the format elements built by the comment formatting code
of rome_formatter (the older builder API used there): tokens, spaces, line
breaks, line suffixes, expand-parent markers, concatenations, the empty
element, and comment wrappers carrying the `move_before_line_break`
flag. -/
inductive FmtElement where
  | empty
  | token : List Char → FmtElement
  | space
  | hardLine
  | emptyLine
  | lineSuffix : FmtElement → FmtElement
  | expandParent
  | listOf : List FmtElement → FmtElement
  | commentEl : FmtElement → Bool → FmtElement

/-- Modelled from the spec: `ConcatBuilder::finish` lives outside the
source tree; a concatenation of no elements is the empty element, of one
element that element, and otherwise a `List`. -/
def concatFinish : List FmtElement → FmtElement
  | [] => .empty
  | [e] => e
  | es => .listOf es

/-- Embedding of `Comment` (rome_formatter comments.rs lines 303-311): the
comment piece (by its text), the newlines before it, and its kind. -/
structure CommentModel where
  text : List Char
  linesBefore : Nat
  kind : CommentKind
deriving DecidableEq, Repr

/-- Embedding of `PreviousToken` (rome_formatter comments.rs lines 79-102):
either an optional real token (carrying its trailing trivia and kind) or a
kind override. -/
inductive PrevTokenModel (K : Type) where
  | token : Option (List TriviaPiece × K) → PrevTokenModel K
  | override : K → PrevTokenModel K

/-- Embedding of `PreviousToken::trailing_trivia` (rome_formatter
comments.rs lines 86-91). -/
def PrevTokenModel.trailingTrivia {K : Type} : PrevTokenModel K → Option (List TriviaPiece)
  | .token (some (tr, _)) => some tr
  | .token none => none
  | .override _ => none

/-- Embedding of `PreviousToken::kind` (rome_formatter comments.rs lines
93-101). -/
def PrevTokenModel.kind {K : Type} : PrevTokenModel K → Option K
  | .token (some (_, k)) => some k
  | .token none => none
  | .override k => some k

/-- Embedding of the `CommentStyle` trait (rome_formatter comments.rs lines
34-49) over a token-kind type `K`. -/
structure CommentStyleModel (K : Type) where
  commentKind : List Char → CommentKind
  isEndGroupingToken : K → Bool
  isStartGroupingToken : K → Bool

/-- Embedding of `FormatPrecedingComments` (rome_formatter comments.rs
lines 51-60): the current token (by its kind and leading trivia) and the
previous token. -/
structure PrecedingCtx (K : Type) where
  tokenKind : K
  tokenLeading : List TriviaPiece
  prev : PrevTokenModel K

/-- Embedding of `should_move_comment_before_line_break` (rome_formatter
comments.rs lines 194-226). -/
def shouldMoveCommentBeforeLineBreak {K : Type} (style : CommentStyleModel K)
    (ctx : PrecedingCtx K) (c : CommentModel) : Bool :=
  if c.linesBefore ≠ 0 then false
  else if c.kind = .block then false
  else
    match ctx.prev.kind with
    | some k => !style.isStartGroupingToken k
    | none => true

/-- Embedding of `needs_space_before_comment` (rome_formatter comments.rs
lines 228-238). -/
def needsSpaceBeforeComment {K : Type} (style : CommentStyleModel K)
    (ctx : PrecedingCtx K) (c : CommentModel) : Bool :=
  if c.kind = .line && c.linesBefore = 0 then true
  else
    match ctx.prev.kind with
    | some k => !style.isStartGroupingToken k
    | none => true

/-- Embedding of `needs_space_after_last_comment` (rome_formatter
comments.rs lines 240-256). -/
def needsSpaceAfterLastComment {K : Type} (style : CommentStyleModel K)
    (ctx : PrecedingCtx K) (c : CommentModel) (linesBeforeToken : Nat) : Bool :=
  match c.kind with
  | .block => false
  | _ =>
    if linesBeforeToken = 0 then !style.isEndGroupingToken ctx.tokenKind
    else false

/-- Embedding of one iteration of the comment loop of `format_comments`
(rome_formatter comments.rs lines 119-186), producing the
`crate::comment(..)` wrapper for one comment; `next` is the following
comment, if any (so `next = none` exactly for the last comment). -/
def formatOneComment {K : Type} (style : CommentStyleModel K) (ctx : PrecedingCtx K)
    (c : CommentModel) (next : Option CommentModel) (linesBeforeToken : Nat) : FmtElement :=
  let onSameLine := c.linesBefore = 0 || c.kind = .inlineBlock
  let move := if onSameLine then shouldMoveCommentBeforeLineBreak style ctx c else false
  let pre : List FmtElement :=
    if onSameLine then
      if needsSpaceBeforeComment style ctx c then [.space] else []
    else
      [if c.linesBefore = 1 then .hardLine else .emptyLine]
  let withText := pre ++ [.token c.text]
  let body :=
    if c.linesBefore = 0 && c.kind = .line && style.isEndGroupingToken ctx.tokenKind then
      [.listOf [.lineSuffix (concatFinish withText), .expandParent]]
    else
      let linesAfterRaw :=
        match next with
        | some n => n.linesBefore
        | none => linesBeforeToken
      let linesAfter := if c.kind = .block then max linesAfterRaw 1 else linesAfterRaw
      withText ++
        match linesAfter with
        | 0 =>
          if next = none && needsSpaceAfterLastComment style ctx c linesBeforeToken then
            [.space]
          else []
        | 1 => [.hardLine]
        | _ => [.emptyLine]
  .commentEl (concatFinish body) move

/-- The comment loop of `format_comments` over all comments, each paired
with its successor. -/
def formatCommentList {K : Type} (style : CommentStyleModel K) (ctx : PrecedingCtx K)
    (linesBeforeToken : Nat) : List CommentModel → List FmtElement
  | [] => []
  | c :: rest =>
    formatOneComment style ctx c rest.head? linesBeforeToken ::
      formatCommentList style ctx linesBeforeToken rest

/-- Embedding of `format_comments` (rome_formatter comments.rs lines
108-192): the empty element for no comments, otherwise the concatenation
of the per-comment elements. -/
def formatComments {K : Type} (style : CommentStyleModel K) (ctx : PrecedingCtx K)
    (comments : List CommentModel) (linesBeforeToken : Nat) : FmtElement :=
  if comments.isEmpty then .empty
  else concatFinish (formatCommentList style ctx linesBeforeToken comments)

/-- Embedding of the trivia scan of `FormatPrecedingComments::format`
(rome_formatter comments.rs lines 276-295): newlines count, comments are
collected with their `lines_before` and kind, whitespace is skipped, and a
`Skipped` piece aborts with `FormatError::SyntaxError`. -/
def collectPrecedingComments (commentKind : List Char → CommentKind) :
    List TriviaPiece → Nat → List CommentModel →
    Except FormatError (List CommentModel × Nat)
  | [], linesBefore, acc => .ok (acc, linesBefore)
  | .newline :: rest, linesBefore, acc =>
    collectPrecedingComments commentKind rest (linesBefore + 1) acc
  | .comment t :: rest, linesBefore, acc =>
    collectPrecedingComments commentKind rest 0 (acc ++ [⟨t, linesBefore, commentKind t⟩])
  | .skipped :: _, _, _ => .error .syntaxError
  | .whitespace :: rest, linesBefore, acc =>
    collectPrecedingComments commentKind rest linesBefore acc

/-- Embedding of `FormatPrecedingComments::format` (rome_formatter
comments.rs lines 259-301): scan the previous token's trailing trivia
followed by the token's leading trivia, then format the collected
comments; a `Skipped` piece surfaces as `FormatError::SyntaxError`. -/
def formatPrecedingComments {K : Type} (style : CommentStyleModel K)
    (ctx : PrecedingCtx K) : Except FormatError FmtElement :=
  let pieces := (ctx.prev.trailingTrivia.getD []) ++ ctx.tokenLeading
  match collectPrecedingComments style.commentKind pieces 0 [] with
  | .error e => .error e
  | .ok (comments, linesBefore) => .ok (formatComments style ctx comments linesBefore)

/-- One step of buffer-state evolution of a `GroupElementsBuffer`: the
inner buffer only grows by comment markers, the group content only grows,
and a non-comment first content element stays the first content element. -/
def GEBStep (st st' : GEBState) : Prop :=
  (∃ hs, st'.inner = st.inner ++ hs ∧ ∀ x ∈ hs, isCommentMarker x = true) ∧
  (∃ cs, st'.content = st.content ++ cs) ∧
  ((∀ hd tl, st.content = hd :: tl → isCommentMarker hd = false) →
    ∀ hd tl, st'.content = hd :: tl → isCommentMarker hd = false)

/-! ## Theorems -/

theorem drainQueue_eq (q : List SignalEntry) :
    drainQueue q =
      match heapPop q with
      | none => []
      | some (m, rest) => m :: drainQueue rest := by
  rw [drainQueue]
  cases h : heapPop q <;> simp [h]

theorem drainQueue_perm_sorted (q : List SignalEntry) :
    (drainQueue q).Perm q ∧
      List.Pairwise (fun a b => a.start ≤ b.start) (drainQueue q) := by
  rw [drainQueue_eq]
  cases h : heapPop q with
  | none =>
    have hq : q = [] := (heapPop_none_iff q).mp h
    subst hq
    exact ⟨List.Perm.refl _, List.Pairwise.nil⟩
  | some p =>
    obtain ⟨m, rest⟩ := p
    obtain ⟨hperm, hmin⟩ := heapPop_perm q m rest h
    obtain ⟨ihp, ihs⟩ := drainQueue_perm_sorted rest
    refine ⟨(List.Perm.cons m ihp).trans hperm, List.Pairwise.cons ?_ ihs⟩
    intro b hb
    exact hmin b (hperm.mem_iff.mp (List.mem_cons_of_mem m (ihp.mem_iff.mp hb)))
termination_by q.length
decreasing_by exact heapPop_length q m rest h

/-- C1: the signal queue is a min-heap keyed on `text_range.start`: whatever
order the rules pushed the entries in, draining emits a permutation of the
queued entries whose `start` offsets are nondecreasing, and two
`SignalEntry` values with equal starts compare equal (their `Ord` returns
`Equal` and their `PartialEq` returns true exactly on equal starts). -/
theorem signalQueue_drain_nondecreasing :
    (∀ q : List SignalEntry,
      (drainQueue q).Perm q ∧
        List.Pairwise (fun a b => a.start ≤ b.start) (drainQueue q)) ∧
    (∀ a b : SignalEntry,
      (cmpSignalEntry a b = Ordering.eq ↔ a.start = b.start) ∧
        (beqSignalEntry a b = true ↔ a.start = b.start)) := by
  refine ⟨drainQueue_perm_sorted, fun a b => ⟨?_, ?_⟩⟩
  · unfold cmpSignalEntry
    rw [Nat.compare_eq_eq]
    exact eq_comm
  · unfold beqSignalEntry
    exact beq_iff_eq

theorem suppressionCommentLines_line_eq (body : List Char) :
    suppressionCommentLines (str "//" ++ body) = some (false, rustLines body) := by
  unfold suppressionCommentLines
  have hlen : ¬ (str "//" ++ body).length < 2 := by simp [str]
  rw [if_neg hlen]
  have htake : (str "//" ++ body).take 2 = str "//" := by simp [str]
  have hdrop : (str "//" ++ body).drop 2 = body := by simp [str]
  rw [htake, hdrop, if_pos rfl]

theorem parseSuppressionComment_line_eq (body : List Char) :
    parseSuppressionComment (str "//" ++ body) =
      collectSuppressionLines false (rustLines body) := by
  unfold parseSuppressionComment
  rw [suppressionCommentLines_line_eq]

/-- C10: parsing the comment `// rome-ignore : reason` yields a suppression
whose category list is empty, although the grammar in the function's own
documentation (`rome-ignore { <category> ... }+: <reason>`) requires at
least one category. -/
theorem parse_suppression_empty_categories :
    parseSuppressionComment (str "// rome-ignore : reason") =
      some [{ categories := [], reason := str "reason" }] := by
  have hsz : ((':').utf8Size = 1) := by decide
  have h1 : parseCategories (str ": reason") [] = some (some ([], str "reason")) := by
    simp [parseCategories, splitAtMatch, isCategorySeparator, rustIsWhitespace, rustTrimStart,
      rustTrimEnd, List.dropWhile, str, hsz]
  have h2 : parseSuppressionLine false (str " rome-ignore : reason") =
      some (some ⟨[], str "reason"⟩) := by
    have h3 : lineAfterCommentMarkers false (str " rome-ignore : reason") =
        str "rome-ignore : reason" := by decide
    have h4 : stripPref (str "rome-ignore") (str "rome-ignore : reason") =
        some (str " : reason") := by decide
    have h5 : rustTrimStart (str " : reason") = str ": reason" := by decide
    have h6 : rustTrimEnd (str "reason") = str "reason" := by decide
    simp [parseSuppressionLine, h3, h4, h5, h6, h1]
  have h7 : rustLines (str " rome-ignore : reason") = [str " rome-ignore : reason"] := by
    decide
  have hbody : str "// rome-ignore : reason" = str "//" ++ str " rome-ignore : reason" := by
    decide
  rw [hbody, parseSuppressionComment_line_eq, h7]
  simp [collectSuppressionLines, h2]

/-- C7, failing input: on the comment `// rome-ignore a\u{00A0}b: reason`
the category-separator search matches the two-byte whitespace U+00A0, so
the one-byte `rest.split_at(1)` panics instead of treating the line as a
non-suppression and an error escapes to the caller (`none` marks the
panic), while an ordinary comment without a valid suppression is skipped
with no error, as the claim and spec section 7 require. -/
theorem suppression_parse_panic_on_multibyte_separator :
    parseSuppressionComment (str "// rome-ignore a\u00A0b: reason") = none ∧
    parseSuppressionComment (str "// not a suppression") = some [] := by
  constructor
  · have hsz : ¬(('\u00A0').utf8Size = 1) := by decide
    have h1 : parseCategories (str "a\u00A0b: reason") [] = none := by
      simp [parseCategories, splitAtMatch, isCategorySeparator, rustIsWhitespace,
        rustTrimEnd, str, hsz]
    have h2 : parseSuppressionLine false (str " rome-ignore a\u00A0b: reason") = none := by
      have h3 : lineAfterCommentMarkers false (str " rome-ignore a\u00A0b: reason") =
          str "rome-ignore a\u00A0b: reason" := by decide
      have h4 : stripPref (str "rome-ignore") (str "rome-ignore a\u00A0b: reason") =
          some (str " a\u00A0b: reason") := by decide
      have h5 : rustTrimStart (str " a\u00A0b: reason") = str "a\u00A0b: reason" := by
        decide
      simp [parseSuppressionLine, h3, h4, h5, h1]
    have h7 : rustLines (str " rome-ignore a\u00A0b: reason") =
        [str " rome-ignore a\u00A0b: reason"] := by decide
    have hbody : str "// rome-ignore a\u00A0b: reason" =
        str "//" ++ str " rome-ignore a\u00A0b: reason" := by decide
    rw [hbody, parseSuppressionComment_line_eq, h7]
    simp [collectSuppressionLines, h2]
  · have h2 : parseSuppressionLine false (str " not a suppression") = some none := by
      have h3 : stripPref (str "rome-ignore")
          (lineAfterCommentMarkers false (str " not a suppression")) = none := by decide
      simp [parseSuppressionLine, h3]
    have h7 : rustLines (str " not a suppression") = [str " not a suppression"] := by decide
    have hbody : str "// not a suppression" = str "//" ++ str " not a suppression" := by
      decide
    rw [hbody, parseSuppressionComment_line_eq, h7]
    simp [collectSuppressionLines, h2]

theorem optionAny_eq_some_true_iff (f : List Char → Option Bool) (ts : List (List Char))
    (hwf : ∀ t ∈ ts, (f t).isSome = true) :
    optionAny f ts = some true ↔ ∃ t ∈ ts, f t = some true := by
  induction ts with
  | nil => simp [optionAny]
  | cons t rest ih =>
    have ht : (f t).isSome = true := hwf t (List.mem_cons_self t rest)
    have ihrest := ih fun u hu => hwf u (List.mem_cons_of_mem t hu)
    cases hft : f t with
    | none => rw [hft] at ht; simp at ht
    | some b =>
      cases b with
      | true => simp [optionAny, hft]
      | false =>
        simp only [optionAny, hft, ihrest]
        constructor
        · rintro ⟨u, hu, hfu⟩
          exact ⟨u, List.mem_cons_of_mem t hu, hfu⟩
        · rintro ⟨u, hu, hfu⟩
          rcases List.mem_cons.mp hu with rfl | hu
          · rw [hfu] at hft; simp at hft
          · exact ⟨u, hu, hfu⟩

theorem anyCategoryInLines_of_collect (category : SuppressionCategory) (isBlock : Bool)
    (ls : List (List Char)) (sups : List Suppression)
    (h : collectSuppressionLines isBlock ls = some sups) :
    anyCategoryInLines category isBlock ls =
      some (sups.any fun s => s.categories.any fun entry =>
        suppressionCategoryEq category entry.1) := by
  induction ls generalizing sups with
  | nil =>
    simp only [collectSuppressionLines, Option.some.injEq] at h
    subst h
    simp [anyCategoryInLines]
  | cons line rest ih =>
    simp only [collectSuppressionLines] at h
    cases hp : parseSuppressionLine isBlock line with
    | none => rw [hp] at h; simp at h
    | some o =>
      rw [hp] at h
      cases o with
      | none =>
        simp only [anyCategoryInLines, hp]
        exact ih sups h
      | some s =>
        cases hc : collectSuppressionLines isBlock rest with
        | none => rw [hc] at h; simp at h
        | some ss =>
          rw [hc] at h
          simp only [Option.some.injEq] at h
          subst h
          simp only [anyCategoryInLines, hp, List.any_cons]
          by_cases hm : (s.categories.any fun entry =>
              suppressionCategoryEq category entry.1) = true
          · simp [hm]
          · simp only [Bool.not_eq_true] at hm
            rw [if_neg (by simp [hm]), ih ss hc]
            simp [hm]

theorem commentSuppresses_isSome (category : SuppressionCategory) (t : List Char)
    (hwf : (parseSuppressionComment t).isSome = true) :
    (commentSuppressesCategory category t).isSome = true := by
  unfold parseSuppressionComment at hwf
  unfold commentSuppressesCategory
  cases hcl : suppressionCommentLines t with
  | none => rw [hcl] at hwf; simp at hwf
  | some p =>
    obtain ⟨isBlock, ls⟩ := p
    rw [hcl] at hwf
    dsimp only at hwf ⊢
    cases hc : collectSuppressionLines isBlock ls with
    | none => rw [hc] at hwf; simp at hwf
    | some sups =>
      rw [anyCategoryInLines_of_collect category isBlock ls sups hc]
      rfl

theorem commentSuppresses_eq_some_true_iff (category : SuppressionCategory) (t : List Char)
    (hwf : (parseSuppressionComment t).isSome = true) :
    commentSuppressesCategory category t = some true ↔
      ∃ sups, parseSuppressionComment t = some sups ∧
        ∃ s ∈ sups, ∃ entry ∈ s.categories,
          suppressionCategoryEq category entry.1 = true := by
  unfold commentSuppressesCategory
  cases hcl : suppressionCommentLines t with
  | none =>
    unfold parseSuppressionComment at hwf
    rw [hcl] at hwf
    simp at hwf
  | some p =>
    obtain ⟨isBlock, ls⟩ := p
    have hparse : parseSuppressionComment t = collectSuppressionLines isBlock ls := by
      unfold parseSuppressionComment
      rw [hcl]
    rw [hparse] at hwf
    dsimp only
    cases hc : collectSuppressionLines isBlock ls with
    | none => rw [hc] at hwf; simp at hwf
    | some sups =>
      rw [anyCategoryInLines_of_collect category isBlock ls sups hc, hparse, hc]
      constructor
      · intro h
        have hany := Option.some.inj h
        obtain ⟨s, hs, hcat⟩ := List.any_eq_true.mp hany
        obtain ⟨entry, hentry, he⟩ := List.any_eq_true.mp hcat
        exact ⟨sups, rfl, s, hs, entry, hentry, he⟩
      · rintro ⟨sups2, hsups2, s, hs, entry, hentry, he⟩
        obtain rfl : sups = sups2 := Option.some.inj hsups2
        rw [List.any_eq_true.mpr ⟨s, hs, List.any_eq_true.mpr ⟨entry, hentry, he⟩⟩]

/-- C6: `has_suppressions_category(category, node)` returns true exactly
when the node is neither a root nor a syntactic list, it has a first
token, and some comment in that token's leading trivia parses to a
suppression whose category list contains the category; in particular it
returns false for every root and every list.  The hypothesis asks all
comments of the node to parse without panicking (`isSome`), since a
malformed block comment makes the Rust function panic. -/
theorem has_suppressions_category_iff (category : SuppressionCategory)
    (node : SyntaxNodeModel)
    (hwf : ∀ t ∈ nodeCommentTexts node, (parseSuppressionComment t).isSome = true) :
    (hasSuppressionsCategory category node = some true ↔
      node.isRoot = false ∧ node.isList = false ∧
        ∃ leading, node.firstTokenLeading = some leading ∧
          ∃ t ∈ commentTexts leading, ∃ sups, parseSuppressionComment t = some sups ∧
            ∃ s ∈ sups, ∃ entry ∈ s.categories,
              suppressionCategoryEq category entry.1 = true) ∧
    ((node.isRoot = true ∨ node.isList = true) →
      hasSuppressionsCategory category node = some false) := by
  constructor
  · unfold hasSuppressionsCategory
    by_cases hr : (node.isRoot || node.isList) = true
    · rw [if_pos hr]
      simp only [Bool.or_eq_true] at hr
      constructor
      · intro h; simp at h
      · rintro ⟨h1, h2, -⟩
        rcases hr with hr | hr
        · rw [h1] at hr; simp at hr
        · rw [h2] at hr; simp at hr
    · rw [if_neg hr]
      simp only [Bool.or_eq_true, not_or, Bool.not_eq_true] at hr
      obtain ⟨hroot, hlist⟩ := hr
      cases hft : node.firstTokenLeading with
      | none =>
        constructor
        · intro h; simp at h
        · rintro ⟨-, -, leading, hl, -⟩
          simp at hl
      | some leading =>
        have hwfc : ∀ t ∈ commentTexts leading,
            (parseSuppressionComment t).isSome = true := by
          intro t ht
          refine hwf t ?_
          unfold nodeCommentTexts
          rw [hft]
          exact ht
        have hwf' : ∀ t ∈ commentTexts leading,
            ((commentSuppressesCategory category) t).isSome = true := fun t ht =>
          commentSuppresses_isSome category t (hwfc t ht)
        rw [optionAny_eq_some_true_iff _ _ hwf']
        constructor
        · rintro ⟨t, ht, hsome⟩
          obtain ⟨sups, hsups, rest⟩ :=
            (commentSuppresses_eq_some_true_iff category t (hwfc t ht)).mp hsome
          exact ⟨hroot, hlist, leading, rfl, t, ht, sups, hsups, rest⟩
        · rintro ⟨-, -, leading', hl, t, ht, sups, hsups, rest⟩
          obtain rfl : leading = leading' := Option.some.inj hl
          refine ⟨t, ht, (commentSuppresses_eq_some_true_iff category t ?_).mpr
            ⟨sups, hsups, rest⟩⟩
          rw [hsups]
          rfl
  · intro h
    unfold hasSuppressionsCategory
    have : (node.isRoot || node.isList) = true := by
      rcases h with h | h <;> simp [h]
    rw [if_pos this]

/-- Witness for C6 at a concrete node: a non-root, non-list node whose
first token carries the leading comment `// rome-ignore lint: reason` is
reported as suppressed for the `Lint` category. -/
theorem has_suppressions_category_iff_witness :
    (∀ t ∈ nodeCommentTexts
        ⟨false, false, some [.comment (str "// rome-ignore lint: reason")]⟩,
      (parseSuppressionComment t).isSome = true) ∧
    hasSuppressionsCategory .lint
      ⟨false, false, some [.comment (str "// rome-ignore lint: reason")]⟩ = some true := by
  have hsz : ((':').utf8Size = 1) := by decide
  have h1 : parseCategories (str "lint: reason") [] =
      some (some ([(str "lint", none)], str "reason")) := by
    simp [parseCategories, splitAtMatch, isCategorySeparator, rustIsWhitespace, rustTrimStart,
      rustTrimEnd, List.dropWhile, str, hsz]
  have h2 : parseSuppressionLine false (str " rome-ignore lint: reason") =
      some (some ⟨[(str "lint", none)], str "reason"⟩) := by
    have h3 : lineAfterCommentMarkers false (str " rome-ignore lint: reason") =
        str "rome-ignore lint: reason" := by decide
    have h4 : stripPref (str "rome-ignore") (str "rome-ignore lint: reason") =
        some (str " lint: reason") := by decide
    have h5 : rustTrimStart (str " lint: reason") = str "lint: reason" := by decide
    have h6 : rustTrimEnd (str "reason") = str "reason" := by decide
    simp [parseSuppressionLine, h3, h4, h5, h6, h1]
  have h7 : rustLines (str " rome-ignore lint: reason") =
      [str " rome-ignore lint: reason"] := by decide
  have hbody : str "// rome-ignore lint: reason" =
      str "//" ++ str " rome-ignore lint: reason" := by decide
  have hparse : parseSuppressionComment (str "// rome-ignore lint: reason") =
      some [⟨[(str "lint", none)], str "reason"⟩] := by
    rw [hbody, parseSuppressionComment_line_eq, h7]
    simp [collectSuppressionLines, h2]
  have hwf : ∀ t ∈ nodeCommentTexts
      ⟨false, false, some [.comment (str "// rome-ignore lint: reason")]⟩,
      (parseSuppressionComment t).isSome = true := by
    intro t ht
    have heq : t = str "// rome-ignore lint: reason" := by
      simpa [nodeCommentTexts, commentTexts] using ht
    rw [heq, hparse]
    rfl
  refine ⟨hwf, ((has_suppressions_category_iff .lint _ hwf).1).mpr ?_⟩
  refine ⟨rfl, rfl, _, rfl, str "// rome-ignore lint: reason", ?_, _, hparse, ?_⟩
  · simp [commentTexts]
  · exact ⟨⟨[(str "lint", none)], str "reason"⟩, by simp, (str "lint", none), by simp, by decide⟩

theorem collectTrailingPieces_texts (pieces : List TriviaPiece) (n : Nat)
    (acc : List TrailingComment) :
    trailingTexts (collectTrailingPieces pieces n acc).1 =
      trailingTexts acc ++ commentTexts pieces := by
  induction pieces generalizing n acc with
  | nil => simp [collectTrailingPieces, commentTexts]
  | cons p rest ih =>
    cases p with
    | whitespace => simp [collectTrailingPieces, commentTexts, ih]
    | newline => simp [collectTrailingPieces, commentTexts, ih]
    | skipped => simp [collectTrailingPieces, commentTexts, ih]
    | comment t =>
      simp only [collectTrailingPieces, ih, commentTexts, List.filterMap_cons]
      simp [trailingTexts, commentTexts]

/-- Counterexample to C2 as stated: for a previous token whose trailing
trivia is the single comment `c`, followed (with no line break) by a token
that begins a new node, the code classifies nothing as trailing — the
comment is handed over to the next node's leading trivia — while the claim
classifies `c` as trailing of the previous token. -/
theorem trailing_classification_counterexample :
    trailingTexts (trailingCommentsForToken
        ⟨[.comment (str "c")], some ⟨[], true⟩⟩) ≠
      claimedTrailingTexts ⟨[.comment (str "c")], some ⟨[], true⟩⟩ ∧
    trailingTexts (trailingCommentsForToken
        ⟨[.comment (str "c")], some ⟨[], true⟩⟩) = [] ∧
    claimedTrailingTexts ⟨[.comment (str "c")], some ⟨[], true⟩⟩ = [str "c"] := by
  decide

/-- C2 amended: the comments classified as trailing of the previous token
`P` are all comments of `P`'s trailing trivia, plus the comments of the
next token `T`'s leading trivia exactly when `T` does not begin a new
node; when `T` begins a new node and no line break separates the two
tokens, no comment at all is classified as trailing (they all become
leading of `T`'s node). -/
theorem trailing_classification_characterization (tok : TrailingTokenModel) :
    trailingTexts (trailingCommentsForToken tok) =
      match tok.next with
      | none => commentTexts tok.trailing
      | some next =>
        if (skipNewLines next.leading).1 = 0 ∧ next.isStartOfNode = true then []
        else if next.isStartOfNode then commentTexts tok.trailing
        else commentTexts tok.trailing ++ commentTexts next.leading := by
  obtain ⟨trailing, next⟩ := tok
  cases next with
  | none =>
    simpa [trailingCommentsForToken] using collectTrailingPieces_texts trailing 0 []
  | some next =>
    obtain ⟨leading, isStart⟩ := next
    simp only [trailingCommentsForToken]
    by_cases hbrk : (skipNewLines leading).1 > 0
    · have hne : ¬((skipNewLines leading).1 = 0 ∧ isStart = true) := by omega
      rw [if_neg hne]
      have hguard : (!decide ((skipNewLines leading).1 > 0) && isStart) = false := by
        simp [hbrk]
      rw [hguard]
      simp only [Bool.false_eq_true, if_false]
      cases isStart with
      | true =>
        simp only [if_true, Bool.not_true, Bool.false_eq_true, if_false]
        simpa using collectTrailingPieces_texts trailing 0 []
      | false =>
        simp only [Bool.not_false, if_true, Bool.false_eq_true, if_false]
        rw [collectTrailingPieces_texts, collectTrailingPieces_texts]
        simp [trailingTexts]
    · have hzero : (skipNewLines leading).1 = 0 := by omega
      cases isStart with
      | true =>
        have hguard : (!decide ((skipNewLines leading).1 > 0) && true) = true := by
          simp [hzero]
        rw [hguard, if_pos rfl, if_pos ⟨hzero, rfl⟩]
        rfl
      | false =>
        have hne : ¬((skipNewLines leading).1 = 0 ∧ false = true) := by simp
        rw [if_neg hne]
        have hguard : (!decide ((skipNewLines leading).1 > 0) && false) = false := by
          simp
        rw [hguard]
        simp only [Bool.false_eq_true, if_false, Bool.not_false, if_true]
        rw [collectTrailingPieces_texts, collectTrailingPieces_texts]
        simp [trailingTexts]

theorem collectPrecedingComments_skipped (ck : List Char → CommentKind)
    (pieces : List TriviaPiece) (linesBefore : Nat) (acc : List CommentModel)
    (h : TriviaPiece.skipped ∈ pieces) :
    collectPrecedingComments ck pieces linesBefore acc = .error .syntaxError := by
  induction pieces generalizing linesBefore acc with
  | nil => simp at h
  | cons p rest ih =>
    cases p with
    | whitespace =>
      have : TriviaPiece.skipped ∈ rest := by
        rcases List.mem_cons.mp h with h' | h'
        · exact absurd h' (by simp)
        · exact h'
      simpa [collectPrecedingComments] using ih _ _ this
    | newline =>
      have : TriviaPiece.skipped ∈ rest := by
        rcases List.mem_cons.mp h with h' | h'
        · exact absurd h' (by simp)
        · exact h'
      simpa [collectPrecedingComments] using ih _ _ this
    | comment t =>
      have : TriviaPiece.skipped ∈ rest := by
        rcases List.mem_cons.mp h with h' | h'
        · exact absurd h' (by simp)
        · exact h'
      simpa [collectPrecedingComments] using ih _ _ this
    | skipped => simp [collectPrecedingComments]

/-- C8: when the trivia surrounding a token (the previous token's trailing
trivia followed by the token's leading trivia) contains a `Skipped` piece,
formatting the comments preceding the token returns
`FormatError::SyntaxError` instead of producing IR elements. -/
theorem skipped_trivia_yields_syntax_error {K : Type} (style : CommentStyleModel K)
    (ctx : PrecedingCtx K)
    (h : TriviaPiece.skipped ∈ (ctx.prev.trailingTrivia.getD []) ++ ctx.tokenLeading) :
    formatPrecedingComments style ctx = .error .syntaxError := by
  unfold formatPrecedingComments
  simp only [collectPrecedingComments_skipped _ _ _ _ h]

/-- Witness for C8 at a concrete token: a token with a single `Skipped`
leading trivia piece and no previous token. -/
theorem skipped_trivia_yields_syntax_error_witness :
    TriviaPiece.skipped ∈
      (((PrevTokenModel.token none : PrevTokenModel Unit).trailingTrivia).getD [] ++
        [TriviaPiece.skipped]) ∧
    formatPrecedingComments
      ⟨fun _ => CommentKind.line, fun _ => false, fun _ => false⟩
      ⟨(), [TriviaPiece.skipped], PrevTokenModel.token none⟩ = .error .syntaxError :=
  ⟨by simp [PrevTokenModel.trailingTrivia],
   skipped_trivia_yields_syntax_error _ _ (by simp [PrevTokenModel.trailingTrivia])⟩

theorem fillEntries_fields (init : FillState) (ws : List (List FormatElement)) :
    (fillEntries init ws).items =
      init.items ++ (ws.map intoElement).filter (fun i => !isEmptyElement i) ∧
    (fillEntries init ws).separator = init.separator := by
  induction ws generalizing init with
  | nil => simp [fillEntries]
  | cons w rest ih =>
    have step : fillEntries init (w :: rest) = fillEntries (fillEntry init w) rest := rfl
    rw [step]
    obtain ⟨h1, h2⟩ := ih (fillEntry init w)
    unfold fillEntry at h1 h2 ⊢
    by_cases he : isEmptyElement (intoElement w) = true
    · simp [he] at h1 h2 ⊢
      exact ⟨h1, h2⟩
    · simp only [Bool.not_eq_true] at he
      simp [he] at h1 h2 ⊢
      exact ⟨h1, h2⟩

/-- C9: after collecting entries, `FillBuilder::finish` writes nothing for
zero non-empty items, writes a single non-empty item alone (no separator,
no `Fill` element), and wraps two or more items in a single `Fill` element
together with the separator.  The collected items are the non-empty
formatted entries, in order. -/
theorem fill_finish_cases (buf : List FormatElement) (sep : FormatElement)
    (ws : List (List FormatElement)) :
    fillFinish buf (fillEntries ⟨sep, []⟩ ws) =
      match (ws.map intoElement).filter (fun i => !isEmptyElement i) with
      | [] => buf
      | [item] => buf ++ [item]
      | items => buf ++ [.fill items sep] := by
  have hb : fillEntries ⟨sep, []⟩ ws =
      ⟨sep, (ws.map intoElement).filter (fun i => !isEmptyElement i)⟩ := by
    obtain ⟨h1, h2⟩ := fillEntries_fields ⟨sep, []⟩ ws
    cases hfe : fillEntries ⟨sep, []⟩ ws
    rw [hfe] at h1 h2
    simp at h1 h2
    simp [h1, h2]
  rw [hb]
  cases hl : (ws.map intoElement).filter (fun i => !isEmptyElement i) with
  | nil => rfl
  | cons a t => cases t <;> rfl

theorem GEBStep.refl (st : GEBState) : GEBStep st st :=
  ⟨⟨[], by simp, by simp⟩, ⟨[], by simp⟩, fun h => h⟩

theorem GEBStep.trans {a b c : GEBState} (h1 : GEBStep a b) (h2 : GEBStep b c) :
    GEBStep a c := by
  obtain ⟨⟨hs1, e1, m1⟩, ⟨cs1, ec1⟩, p1⟩ := h1
  obtain ⟨⟨hs2, e2, m2⟩, ⟨cs2, ec2⟩, p2⟩ := h2
  refine ⟨⟨hs1 ++ hs2, by rw [e2, e1, List.append_assoc], ?_⟩,
    ⟨cs1 ++ cs2, by rw [ec2, ec1, List.append_assoc]⟩, fun h => p2 (p1 h)⟩
  intro x hx
  rcases List.mem_append.mp hx with hx | hx
  · exact m1 x hx
  · exact m2 x hx

theorem GEBStep.innerPush (st : GEBState) (c : FormatElement)
    (hm : isCommentMarker c = true) :
    GEBStep st { st with inner := st.inner ++ [c] } :=
  ⟨⟨[c], rfl, by simpa⟩, ⟨[], by simp⟩, fun h => h⟩

theorem GEBStep.contentPush (st : GEBState) (e : FormatElement)
    (hm : isCommentMarker e = false) :
    GEBStep st { st with content := st.content ++ [e] } := by
  refine ⟨⟨[], by simp, by simp⟩, ⟨[e], rfl⟩, ?_⟩
  intro hok hd tl hc
  cases hst : st.content with
  | nil =>
    rw [hst] at hc
    simp only [List.nil_append, List.cons.injEq] at hc
    rw [← hc.1]
    exact hm
  | cons a t =>
    rw [hst] at hc
    simp only [List.cons_append, List.cons.injEq] at hc
    rw [← hc.1]
    exact hok a t hst

theorem GEBStep.contentExtendNonempty (st : GEBState) (l : List FormatElement)
    (hne : st.content ≠ []) :
    GEBStep st { st with content := st.content ++ l } := by
  refine ⟨⟨[], by simp, by simp⟩, ⟨l, rfl⟩, ?_⟩
  intro hok hd tl hc
  cases hst : st.content with
  | nil => exact absurd hst hne
  | cons a t =>
    rw [hst] at hc
    simp only [List.cons_append, List.cons.injEq] at hc
    rw [← hc.1]
    exact hok a t hst

mutual

theorem writeElement_step (st : GEBState) (e : FormatElement) :
    GEBStep st (writeElement st e) := by
  rw [writeElement.eq_def]
  by_cases hc : st.content.isEmpty = true
  · rw [if_pos hc]
    cases e with
    | list l => exact writeElements_step st l
    | interned u e' =>
      cases u with
      | true =>
        show GEBStep st (writeElement st e')
        exact writeElement_step st e'
      | false =>
        show GEBStep st (writeInterned st false e')
        exact writeInterned_step st false e'
    | comment c => exact GEBStep.innerPush st _ rfl
    | token s => exact GEBStep.contentPush st _ rfl
    | space => exact GEBStep.contentPush st _ rfl
    | line m => exact GEBStep.contentPush st _ rfl
    | expandParent => exact GEBStep.contentPush st _ rfl
    | group gid es => exact GEBStep.contentPush st _ rfl
    | conditional m gid es => exact GEBStep.contentPush st _ rfl
    | indentEl es => exact GEBStep.contentPush st _ rfl
    | fill items sep => exact GEBStep.contentPush st _ rfl
  · rw [if_neg hc]
    have hne : st.content ≠ [] := by
      intro h
      rw [h] at hc
      exact hc rfl
    cases e with
    | list l => exact GEBStep.contentExtendNonempty st l hne
    | interned u e' => exact GEBStep.contentExtendNonempty st [_] hne
    | comment c => exact GEBStep.contentExtendNonempty st [_] hne
    | token s => exact GEBStep.contentExtendNonempty st [_] hne
    | space => exact GEBStep.contentExtendNonempty st [_] hne
    | line m => exact GEBStep.contentExtendNonempty st [_] hne
    | expandParent => exact GEBStep.contentExtendNonempty st [_] hne
    | group gid es => exact GEBStep.contentExtendNonempty st [_] hne
    | conditional m gid es => exact GEBStep.contentExtendNonempty st [_] hne
    | indentEl es => exact GEBStep.contentExtendNonempty st [_] hne
    | fill items sep => exact GEBStep.contentExtendNonempty st [_] hne
termination_by (sizeOf e, 0)

theorem writeElements_step (st : GEBState) (es : List FormatElement) :
    GEBStep st (writeElements st es) := by
  rw [writeElements.eq_def]
  cases es with
  | nil => exact GEBStep.refl st
  | cons e rest => exact (writeElement_step st e).trans (writeElements_step _ rest)
termination_by (sizeOf es, 0)

theorem writeInterned_step (st : GEBState) (u : Bool) (e : FormatElement) :
    GEBStep st (writeInterned st u e) := by
  rw [writeInterned.eq_def]
  cases e with
  | comment l => exact GEBStep.innerPush st _ rfl
  | list l =>
    dsimp only
    by_cases hh : hoistsFirst l = true
    · rw [if_pos hh]; exact writeInternedRun_step st l
    · rw [if_neg hh]; exact GEBStep.contentPush st _ rfl
  | interned u' e' => exact writeInterned_step st u' e'
  | token s => exact GEBStep.contentPush st _ rfl
  | space => exact GEBStep.contentPush st _ rfl
  | line m => exact GEBStep.contentPush st _ rfl
  | expandParent => exact GEBStep.contentPush st _ rfl
  | group gid es => exact GEBStep.contentPush st _ rfl
  | conditional m gid es => exact GEBStep.contentPush st _ rfl
  | indentEl es => exact GEBStep.contentPush st _ rfl
  | fill items sep => exact GEBStep.contentPush st _ rfl
termination_by (sizeOf e, 0)

theorem writeInternedRun_step (st : GEBState) (rest : List FormatElement) :
    GEBStep st (writeInternedRun st rest) := by
  rw [writeInternedRun.eq_def]
  cases rest with
  | nil => exact GEBStep.refl st
  | cons first rest' =>
    cases first with
    | comment c =>
      exact (GEBStep.innerPush st (.comment c) rfl).trans (writeInternedRun_step _ rest')
    | interned u' e' =>
      dsimp only
      by_cases he : (writeInterned st u' e').content.isEmpty = true
      · rw [if_pos he]
        exact (writeInterned_step st u' e').trans (writeInternedRun_step _ rest')
      · rw [if_neg he]
        exact (writeInterned_step st u' e').trans (writeElements_step _ rest')
    | token s => exact writeElements_step st (_ :: rest')
    | space => exact writeElements_step st (_ :: rest')
    | line m => exact writeElements_step st (_ :: rest')
    | expandParent => exact writeElements_step st (_ :: rest')
    | group gid es => exact writeElements_step st (_ :: rest')
    | conditional m gid es => exact writeElements_step st (_ :: rest')
    | indentEl es => exact writeElements_step st (_ :: rest')
    | list es => exact writeElements_step st (_ :: rest')
    | fill items sep => exact writeElements_step st (_ :: rest')
termination_by (sizeOf rest, 1)

end

/-- C3: writing a group's content through a `GroupElementsBuffer` hoists
the leading comment markers into the enclosing buffer ahead of the `Group`
element: every element written through to the enclosing buffer is a
comment marker, the first element remaining in the group's content is not
a comment marker, the group written by `group_elements` comes after the
hoisted markers, and once the content is non-empty a further write never
touches the enclosing buffer. -/
theorem group_elements_hoists_leading_comments (inner : List FormatElement)
    (es : List FormatElement) (groupId : Option Nat) :
    ∃ hoisted content,
      writeElements ⟨inner, []⟩ es = ⟨inner ++ hoisted, content⟩ ∧
      (∀ x ∈ hoisted, isCommentMarker x = true) ∧
      (∀ hd tl, content = hd :: tl → isCommentMarker hd = false) ∧
      (content ≠ [] →
        groupElementsWrite inner es groupId =
          inner ++ hoisted ++ [.group groupId content]) ∧
      (∀ e, content ≠ [] →
        (writeElement ⟨inner ++ hoisted, content⟩ e).inner = inner ++ hoisted) := by
  obtain ⟨⟨hs, hinner, hmark⟩, ⟨cs, hcontent⟩, hok⟩ := writeElements_step ⟨inner, []⟩ es
  rw [List.nil_append] at hcontent
  have hcontentOk : ∀ hd tl, cs = hd :: tl → isCommentMarker hd = false := by
    intro hd tl h
    refine hok ?_ hd tl (by rw [hcontent, h])
    intro hd' tl' h'
    exact absurd h' (by simp)
  have hstate : writeElements ⟨inner, []⟩ es = ⟨inner ++ hs, cs⟩ := by
    cases hw : writeElements ⟨inner, []⟩ es
    rw [hw] at hinner hcontent
    simp only at hinner hcontent
    rw [hinner, hcontent]
  refine ⟨hs, cs, hstate, hmark, hcontentOk, ?_, ?_⟩
  · intro hne
    unfold groupElementsWrite
    rw [hstate]
    have h1 : ¬((⟨inner ++ hs, cs⟩ : GEBState).content.isEmpty &&
        groupId.isNone) = true := by
      intro hcontra
      rw [Bool.and_eq_true] at hcontra
      exact hne (List.isEmpty_iff.mp hcontra.1)
    simp only [if_neg h1]
  · intro e hne
    rw [writeElement.eq_def]
    have h1 : ¬(⟨inner ++ hs, cs⟩ : GEBState).content.isEmpty = true := by
      intro h2
      simp only at h2
      exact hne (List.isEmpty_iff.mp h2)
    rw [if_neg h1]
    cases e <;> rfl

/-- C5: for any `GroupElementsBuffer` state and any sequence of element
writes performed after taking a snapshot, restoring the snapshot rolls the
buffer back to exactly the state at snapshot time — the inner buffer's
element count and the buffer-local pending content both return to their
recorded values. -/
theorem buffer_restore_snapshot_rolls_back (st : GEBState)
    (es : List FormatElement) :
    gebRestoreSnapshot (writeElements st es) (gebSnapshot st) = st := by
  obtain ⟨⟨hs, hinner, -⟩, ⟨cs, hcontent⟩, -⟩ := writeElements_step st es
  unfold gebRestoreSnapshot gebSnapshot
  cases hw : writeElements st es
  rw [hw] at hinner hcontent
  simp only at hinner hcontent
  rw [hinner, hcontent]
  simp only [List.take_left]

theorem scenarioThreeDoc_eq :
    scenarioThreeDoc =
      [.group none [.token "[",
        .indentEl [.line .soft, .token "1,", .line .softOrSpace, .token "2,",
          .line .softOrSpace, .token "3", .conditional .expanded none [.token ","]],
        .line .soft, .token "]"]] := by
  simp [scenarioThreeDoc, groupElementsWrite, softBlockIndentWrite, ifGroupBreaksWrite,
    writeElements, writeElement]

/-- Counterexample to C4 as stated: at `print_width` 20 the group's flat
measure is 9 (`[1, 2, 3]`), which fits, so the printer emits the
single-line form and not the expanded form the claim expects. -/
theorem scenario_three_width20_counterexample :
    printDoc { printWidth := 20 } scenarioThreeDoc ≠ "[\n\t1,\n\t2,\n\t3,\n]" ∧
    printDoc { printWidth := 20 } scenarioThreeDoc = "[1, 2, 3]" := by
  rw [scenarioThreeDoc_eq]
  constructor <;>
    · simp [printDoc, printList, printElement, flatWidthList, flatWidth, pushText,
        pushNewline, String.join]
      decide

/-- C4 amended: the group IR of spec scenario 3 prints as `[1, 2, 3]` at
width 80 and still at width 20 (its flat measure 9 fits both); the
expanded form `[\n\t1,\n\t2,\n\t3,\n]`, with the `if_group_breaks`
trailing comma, appears once the width drops below the flat measure, e.g.
at width 8. -/
theorem scenario_three_print_results :
    printDoc { printWidth := 80 } scenarioThreeDoc = "[1, 2, 3]" ∧
    printDoc { printWidth := 20 } scenarioThreeDoc = "[1, 2, 3]" ∧
    printDoc { printWidth := 8 } scenarioThreeDoc = "[\n\t1,\n\t2,\n\t3,\n]" := by
  rw [scenarioThreeDoc_eq]
  refine ⟨?_, ?_, ?_⟩ <;>
    · simp [printDoc, printList, printElement, flatWidthList, flatWidth, pushText,
        pushNewline, String.join]
      decide
